import Mathlib

/-!
Verification of the graphlearn-for-pytorch partitioning subsystem.

This file gives a shallow embedding of the core partitioning code
(`graphlearn_torch/python/partition/base.py` and
`graphlearn_torch/python/distributed/dist_dataset.py`) and proves the
documented properties of that code.

Modelling conventions:
* torch integer tensors become `List Nat`; a total node partition book
  becomes a function `Nat → Nat` (global node id to shard index).
* parallel-array slicing plus `masked_select` based gathering with
  monotone indices becomes `List.filter` over the list of parallel
  triples `(row, col, eid)`.
* in-place tensor scatter writes (`book[eids] = pidx`) become a fold of
  `List.set` over the written positions.
* fallible torch operations (`torch.max` of an empty tensor raises)
  return `Option`; Python float division on these small counts is
  modelled exactly by `ℚ`.
-/

set_option maxHeartbeats 1000000

namespace GLT

/-- Edge assignment strategy flag of `PartitionerBase`: `'by_src'` or `'by_dst'`. -/
inductive EdgeAssignStrategy
  | by_src
  | by_dst
deriving DecidableEq, Repr

/-- Per-shard graph topology partition: three parallel arrays of source ids,
destination ids, and original global edge ids (`GraphPartitionData`). -/
structure GraphPartitionData where
  rows : List Nat
  cols : List Nat
  eids : List Nat
deriving DecidableEq, Repr

instance : Inhabited GraphPartitionData := ⟨⟨[], [], []⟩⟩

/-- The edge list as parallel triples `(rows[i], cols[i], i)`, mirroring
`rows, cols` and `eids = torch.arange(edge_num)` in `_partition_graph`. -/
def edgeTriples (rows cols : List Nat) : List (Nat × Nat × Nat) :=
  (List.range rows.length).map fun i => (rows.getD i 0, cols.getD i 0, i)

/-- The designated endpoint of an edge triple: the source id under `by_src`,
the destination id under `by_dst` (`target_indices` in the source). -/
def targetOf (strategy : EdgeAssignStrategy) (t : Nat × Nat × Nat) : Nat :=
  match strategy with
  | .by_src => t.1
  | .by_dst => t.2.1

/-- The chunk decomposition of the edge list performed by the loop in
`_partition_graph`: `chunk_num = (edge_num + chunk_size - 1) // chunk_size`
chunks, the `i`-th chunk being the slice
`[i * chunk_size, min(edge_num, (i+1) * chunk_size))`. -/
def chunks (chunkSize : Nat) (l : List α) : List (List α) :=
  (List.range ((l.length + chunkSize - 1) / chunkSize)).map fun i =>
    (l.drop (i * chunkSize)).take chunkSize

/-- Selection of one chunk's edges for shard `pidx`:
`mask = (chunk_partition_idx == pidx); idx = masked_select(chunk_idx, mask)`
followed by gathering `chunk_rows[idx], chunk_cols[idx], chunk_eids[idx]`,
i.e. an order-preserving filter of the chunk's triples. -/
def chunkSelect (node_pb : Nat → Nat) (strategy : EdgeAssignStrategy) (pidx : Nat)
    (chunk : List (Nat × Nat × Nat)) : List (Nat × Nat × Nat) :=
  chunk.filter fun t => node_pb (targetOf strategy t) == pidx

/-- Shard `pidx`'s accumulated edge triples: per-chunk selections appended in
chunk order (`res[pidx].append(...)` in the loop), then concatenated. This is
the value of the per-shard `torch.cat(res[pidx])` on the successful path; on
an empty chunk list (`chunk_num = 0`, i.e. an empty edge list) that
`torch.cat` raises, which `partitionGraphRun` models — there `shardTriples`
is never reached. -/
def shardTriples (node_pb : Nat → Nat) (strategy : EdgeAssignStrategy)
    (chunkSize pidx : Nat) (rows cols : List Nat) : List (Nat × Nat × Nat) :=
  ((chunks chunkSize (edgeTriples rows cols)).map
    (chunkSelect node_pb strategy pidx)).flatten

/-- Repackaging a list of triples as the three parallel arrays of a
`GraphPartitionData`. -/
def gpdOfTriples (ts : List (Nat × Nat × Nat)) : GraphPartitionData :=
  ⟨ts.map fun t => t.1, ts.map fun t => t.2.1, ts.map fun t => t.2.2⟩

/-- Scatter-write of one constant value at a list of positions, mirroring the
tensor assignment `book[positions] = v`. -/
def scatterConst (book : List Nat) (positions : List Nat) (v : Nat) : List Nat :=
  positions.foldl (fun b p => b.set p v) book

/-- The edge partition book built by `_partition_graph`:
`partition_book = torch.zeros(edge_num, dtype=torch.long)` followed by
`partition_book[p_eids] = pidx` for each shard `pidx` in order. -/
def edgePartitionBook (node_pb : Nat → Nat) (strategy : EdgeAssignStrategy)
    (numParts chunkSize : Nat) (rows cols : List Nat) : List Nat :=
  (List.range numParts).foldl
    (fun book pidx =>
      scatterConst book
        ((shardTriples node_pb strategy chunkSize pidx rows cols).map fun t => t.2.2)
        pidx)
    (List.replicate rows.length 0)

/-- The successful-path result of `PartitionerBase._partition_graph`: the
list of per-shard `GraphPartitionData` (index = shard) and the edge partition
book. The error path — the per-shard `torch.cat(res[pidx])` raising when the
edge list is empty — is modelled by `partitionGraphRun`, which yields this
value exactly when no shard's concatenation raises. -/
def partitionGraph (node_pb : Nat → Nat) (strategy : EdgeAssignStrategy)
    (numParts chunkSize : Nat) (rows cols : List Nat) :
    List GraphPartitionData × List Nat :=
  ((List.range numParts).map fun pidx =>
      gpdOfTriples (shardTriples node_pb strategy chunkSize pidx rows cols),
   edgePartitionBook node_pb strategy numParts chunkSize rows cols)

/-- Concatenation `torch.cat(tensors)`: raises (here `none`) on an empty list
of tensors, otherwise concatenates them in order. -/
def torchCat (L : List (List α)) : Option (List α) :=
  match L with
  | [] => none
  | _ => some L.flatten

/-- Full result of `_partition_graph`, error path included. Each shard's
arrays come from `torch.cat` over `res[pidx]`, the list of per-chunk
selections for that shard; when that list is empty — `chunk_num = 0`, i.e.
the edge list is empty — `torch.cat` raises and the call returns nothing.
With every shard's list nonempty the result is the successful-path value
`partitionGraph` (whose per-shard flatten is exactly what each `torch.cat`
returns there). -/
def partitionGraphRun (node_pb : Nat → Nat) (strategy : EdgeAssignStrategy)
    (numParts chunkSize : Nat) (rows cols : List Nat) :
    Option (List GraphPartitionData × List Nat) :=
  if ∀ pidx ∈ List.range numParts,
      (torchCat ((chunks chunkSize (edgeTriples rows cols)).map
        (chunkSelect node_pb strategy pidx))).isSome then
    some (partitionGraph node_pb strategy numParts chunkSize rows cols)
  else
    none

/-- The shard of edge `e`'s designated endpoint, as looked up by
`_partition_graph`: `node_pb[rows[e]]` under `by_src`, `node_pb[cols[e]]`
under `by_dst`. -/
def shardOfEdge (node_pb : Nat → Nat) (strategy : EdgeAssignStrategy)
    (rows cols : List Nat) (e : Nat) : Nat :=
  node_pb (targetOf strategy (rows.getD e 0, cols.getD e 0, e))

/-! ### Lemmas about the chunk decomposition -/

theorem chunks_nil (c : Nat) : chunks c ([] : List α) = [] := by
  unfold chunks
  have h : (List.length ([] : List α) + c - 1) / c = 0 := by
    cases c with
    | zero => simp
    | succ k =>
      simp only [List.length_nil, Nat.zero_add]
      exact Nat.div_eq_of_lt (by omega)
  rw [h]
  rfl

theorem chunks_cons (c : Nat) (hc : 1 ≤ c) (l : List α) (hl : l ≠ []) :
    chunks c l = l.take c :: chunks c (l.drop c) := by
  have hn : 1 ≤ l.length := List.length_pos.mpr hl
  unfold chunks
  have h1 : l.length + c - 1 = (l.length - 1) + c := by omega
  rw [h1, Nat.add_div_right _ (by omega : 0 < c), List.range_succ_eq_map,
    List.map_cons]
  have hm : ((l.drop c).length + c - 1) / c = (l.length - 1) / c := by
    rw [List.length_drop]
    rcases le_or_lt c l.length with h | h
    · congr 1
      omega
    · have e1 : l.length - c = 0 := by omega
      rw [e1, Nat.zero_add, Nat.div_eq_of_lt (by omega), Nat.div_eq_of_lt (by omega)]
  rw [hm]
  congr 1
  · rw [Nat.zero_mul, List.drop_zero]
  · rw [List.map_map]
    apply List.map_congr_left
    intro i _
    simp only [Function.comp_apply]
    rw [List.drop_drop]
    congr 2
    rw [Nat.succ_mul]
    ring

theorem flatten_chunks (c : Nat) (hc : 1 ≤ c) : ∀ l : List α, (chunks c l).flatten = l := by
  have main : ∀ (n : Nat) (l : List α), l.length = n → (chunks c l).flatten = l := by
    intro n
    induction n using Nat.strong_induction_on with
    | _ n ih =>
      intro l hn
      cases l with
      | nil => rw [chunks_nil]; rfl
      | cons x xs =>
        rw [chunks_cons c hc _ (by simp), List.flatten_cons]
        have hlt : ((x :: xs).drop c).length < n := by
          rw [List.length_drop]
          simp only [List.length_cons] at hn ⊢
          omega
        rw [ih _ hlt _ rfl, List.take_append_drop]
  intro l
  exact main l.length l rfl

theorem flatten_map_filter (p : α → Bool) :
    ∀ L : List (List α), (L.map (List.filter p)).flatten = L.flatten.filter p := by
  intro L
  induction L with
  | nil => rfl
  | cons x xs ih =>
    simp only [List.map_cons, List.flatten_cons, List.filter_append, ih]

theorem chunks_ne_nil (c : Nat) (hc : 1 ≤ c) (l : List α) (hl : l ≠ []) :
    chunks c l ≠ [] := by
  rw [chunks_cons c hc l hl]
  exact List.cons_ne_nil _ _

theorem edgeTriples_length (rows cols : List Nat) :
    (edgeTriples rows cols).length = rows.length := by
  unfold edgeTriples
  rw [List.length_map, List.length_range]

theorem edgeTriples_ne_nil (rows cols : List Nat) (h : rows ≠ []) :
    edgeTriples rows cols ≠ [] := by
  intro hnil
  have hlen := edgeTriples_length rows cols
  rw [hnil] at hlen
  exact h (List.length_eq_zero.mp hlen.symm)

theorem torchCat_isSome_iff (L : List (List α)) : (torchCat L).isSome = true ↔ L ≠ [] := by
  cases L with
  | nil => simp [torchCat]
  | cons x xs => simp [torchCat]

/-- On a nonempty list of tensors `torch.cat` succeeds with the in-order
concatenation. -/
theorem torchCat_eq_some (L : List (List α)) (h : L ≠ []) :
    torchCat L = some L.flatten := by
  cases L with
  | nil => exact absurd rfl h
  | cons x xs => rfl

/-- On a nonempty edge list no per-shard `torch.cat` raises, and
`_partition_graph` returns the successful-path value. -/
theorem partitionGraphRun_eq_some (node_pb : Nat → Nat) (strategy : EdgeAssignStrategy)
    (numParts chunkSize : Nat) (rows cols : List Nat)
    (hne : rows ≠ []) (hc : 1 ≤ chunkSize) :
    partitionGraphRun node_pb strategy numParts chunkSize rows cols
      = some (partitionGraph node_pb strategy numParts chunkSize rows cols) := by
  unfold partitionGraphRun
  rw [if_pos]
  intro pidx _
  rw [torchCat_isSome_iff]
  intro hnil
  exact chunks_ne_nil chunkSize hc (edgeTriples rows cols)
    (edgeTriples_ne_nil rows cols hne) (List.map_eq_nil_iff.mp hnil)

/-- Chunked accumulation for one shard collapses to a plain order-preserving
filter of the whole edge list: chunking only changes batch granularity. -/
theorem shardTriples_eq_filter (node_pb : Nat → Nat) (strategy : EdgeAssignStrategy)
    (chunkSize pidx : Nat) (hc : 1 ≤ chunkSize) (rows cols : List Nat) :
    shardTriples node_pb strategy chunkSize pidx rows cols
      = (edgeTriples rows cols).filter fun t => node_pb (targetOf strategy t) == pidx := by
  unfold shardTriples chunkSelect
  rw [flatten_map_filter, flatten_chunks _ hc]

/-- Shard accumulation, phrased as a filter of the edge-id range followed by a
lookup of the parallel arrays. -/
theorem shardTriples_eq_range_filter (node_pb : Nat → Nat) (strategy : EdgeAssignStrategy)
    (chunkSize pidx : Nat) (hc : 1 ≤ chunkSize) (rows cols : List Nat) :
    shardTriples node_pb strategy chunkSize pidx rows cols
      = (((List.range rows.length).filter fun e =>
            shardOfEdge node_pb strategy rows cols e == pidx).map
          fun e => (rows.getD e 0, cols.getD e 0, e)) := by
  rw [shardTriples_eq_filter _ _ _ _ hc]
  unfold edgeTriples
  rw [List.filter_map]
  rfl

/-- The per-shard edge-id array is the in-order selection of original edge ids
whose designated endpoint lands in that shard. -/
theorem shardEids_eq (node_pb : Nat → Nat) (strategy : EdgeAssignStrategy)
    (chunkSize pidx : Nat) (hc : 1 ≤ chunkSize) (rows cols : List Nat) :
    (shardTriples node_pb strategy chunkSize pidx rows cols).map (fun t => t.2.2)
      = (List.range rows.length).filter fun e =>
          shardOfEdge node_pb strategy rows cols e == pidx := by
  rw [shardTriples_eq_range_filter _ _ _ _ hc, List.map_map]
  exact List.map_id' _

/-! ### Lemmas about scatter writes -/

theorem scatterConst_cons (book : List Nat) (p : Nat) (ps : List Nat) (v : Nat) :
    scatterConst book (p :: ps) v = scatterConst (book.set p v) ps v := rfl

theorem scatterConst_length (v : Nat) :
    ∀ (positions : List Nat) (book : List Nat),
      (scatterConst book positions v).length = book.length := by
  intro positions
  induction positions with
  | nil => intro book; rfl
  | cons p ps ih =>
    intro book
    rw [scatterConst_cons, ih, List.length_set]

theorem scatterConst_getElem?_not_mem (v e : Nat) :
    ∀ (positions : List Nat) (book : List Nat), e ∉ positions →
      (scatterConst book positions v)[e]? = book[e]? := by
  intro positions
  induction positions with
  | nil => intro book _; rfl
  | cons p ps ih =>
    intro book hmem
    rw [scatterConst_cons, ih _ (fun h => hmem (List.mem_cons_of_mem p h)),
      List.getElem?_set, if_neg (fun h => hmem (List.mem_cons.mpr (Or.inl h.symm)))]

theorem scatterConst_getElem?_mem (v e : Nat) :
    ∀ (positions : List Nat) (book : List Nat), e ∈ positions → e < book.length →
      (scatterConst book positions v)[e]? = some v := by
  intro positions
  induction positions with
  | nil => intro book hmem _; exact absurd hmem (List.not_mem_nil e)
  | cons p ps ih =>
    intro book hmem hlen
    rw [scatterConst_cons]
    by_cases hps : e ∈ ps
    · exact ih _ hps (by rw [List.length_set]; exact hlen)
    · have hpe : e = p := by
        rcases List.mem_cons.mp hmem with h | h
        · exact h
        · exact absurd h hps
      subst hpe
      rw [scatterConst_getElem?_not_mem _ _ _ _ hps, List.getElem?_set, if_pos rfl,
        if_pos hlen]

theorem foldl_scatter_length (pos : Nat → List Nat) :
    ∀ (ks : List Nat) (book : List Nat),
      (ks.foldl (fun b k => scatterConst b (pos k) k) book).length = book.length := by
  intro ks
  induction ks with
  | nil => intro book; rfl
  | cons k ks ih =>
    intro book
    have h : (k :: ks).foldl (fun b k => scatterConst b (pos k) k) book
        = ks.foldl (fun b k => scatterConst b (pos k) k) (scatterConst book (pos k) k) := rfl
    rw [h, ih, scatterConst_length]

theorem foldl_scatter_untouched (pos : Nat → List Nat) (e : Nat) :
    ∀ (ks : List Nat), (∀ k ∈ ks, e ∉ pos k) →
      ∀ book : List Nat,
        (ks.foldl (fun b k => scatterConst b (pos k) k) book)[e]? = book[e]? := by
  intro ks
  induction ks with
  | nil => intro _ book; rfl
  | cons k ks ih =>
    intro hk book
    have h : (k :: ks).foldl (fun b k => scatterConst b (pos k) k) book
        = ks.foldl (fun b k => scatterConst b (pos k) k) (scatterConst book (pos k) k) := rfl
    rw [h, ih (fun k' hk' => hk k' (List.mem_cons_of_mem _ hk')),
      scatterConst_getElem?_not_mem _ _ _ _ (hk k (List.mem_cons_self _ _))]

/-- A sequence of scatter passes, one per shard index, with each position
written by exactly the pass carrying its designated value `v`, leaves `some v`
at that position. -/
theorem foldl_scatter_some (pos : Nat → List Nat) (e v : Nat) :
    ∀ ks : List Nat, ks.Nodup → (∀ k ∈ ks, (e ∈ pos k ↔ k = v)) → v ∈ ks →
      ∀ book : List Nat, e < book.length →
        (ks.foldl (fun b k => scatterConst b (pos k) k) book)[e]? = some v := by
  intro ks
  induction ks with
  | nil => intro _ _ hv; exact absurd hv (List.not_mem_nil v)
  | cons k ks ih =>
    intro hnd hiff hv book hlen
    have hstep : (k :: ks).foldl (fun b k => scatterConst b (pos k) k) book
        = ks.foldl (fun b k => scatterConst b (pos k) k) (scatterConst book (pos k) k) := rfl
    rw [hstep]
    by_cases hkv : k = v
    · subst hkv
      have he : e ∈ pos k := (hiff k (List.mem_cons_self _ _)).mpr rfl
      have hrest : ∀ k' ∈ ks, e ∉ pos k' := by
        intro k' hk' hmem
        have hk'k : k' = k := (hiff k' (List.mem_cons_of_mem _ hk')).mp hmem
        exact (List.nodup_cons.mp hnd).1 (hk'k ▸ hk')
      rw [foldl_scatter_untouched _ _ _ hrest, scatterConst_getElem?_mem _ _ _ _ he hlen]
    · have he : e ∉ pos k := fun hmem => hkv ((hiff k (List.mem_cons_self _ _)).mp hmem)
      have hv' : v ∈ ks := by
        rcases List.mem_cons.mp hv with h | h
        · exact absurd h.symm hkv
        · exact h
      exact ih (List.nodup_cons.mp hnd).2
        (fun k' hk' => hiff k' (List.mem_cons_of_mem _ hk')) hv'
        (scatterConst book (pos k) k)
        (by rw [scatterConst_length]; exact hlen)

/-! ### Characterization of the edge partition book -/

theorem edgePartitionBook_length (node_pb : Nat → Nat) (strategy : EdgeAssignStrategy)
    (numParts chunkSize : Nat) (rows cols : List Nat) :
    (edgePartitionBook node_pb strategy numParts chunkSize rows cols).length
      = rows.length := by
  unfold edgePartitionBook
  rw [foldl_scatter_length, List.length_replicate]

/-- Every valid position of the scatter-built edge partition book holds the
shard of that edge's designated endpoint, provided the node partition book is
total for the shard count. -/
theorem edgePartitionBook_getElem? (node_pb : Nat → Nat) (strategy : EdgeAssignStrategy)
    (numParts chunkSize : Nat) (rows cols : List Nat)
    (hc : 1 ≤ chunkSize) (htotal : ∀ n, node_pb n < numParts)
    (e : Nat) (he : e < rows.length) :
    (edgePartitionBook node_pb strategy numParts chunkSize rows cols)[e]?
      = some (shardOfEdge node_pb strategy rows cols e) := by
  unfold edgePartitionBook
  apply foldl_scatter_some
    (fun k => (shardTriples node_pb strategy chunkSize k rows cols).map fun t => t.2.2)
    e (shardOfEdge node_pb strategy rows cols e) (List.range numParts)
    (List.nodup_range numParts)
  · intro k _
    rw [shardEids_eq _ _ _ _ hc, List.mem_filter, List.mem_range]
    constructor
    · intro h
      exact (beq_iff_eq.mp h.2).symm
    · intro h
      exact ⟨he, beq_iff_eq.mpr h.symm⟩
  · rw [List.mem_range]
    exact htotal _
  · rw [List.length_replicate]
    exact he

/-- The edge partition book equals the direct per-edge lookup of the designated
endpoint's shard. -/
theorem edgePartitionBook_eq (node_pb : Nat → Nat) (strategy : EdgeAssignStrategy)
    (numParts chunkSize : Nat) (rows cols : List Nat)
    (hc : 1 ≤ chunkSize) (htotal : ∀ n, node_pb n < numParts) :
    edgePartitionBook node_pb strategy numParts chunkSize rows cols
      = (List.range rows.length).map (shardOfEdge node_pb strategy rows cols) := by
  apply List.ext_getElem?
  intro i
  by_cases hi : i < rows.length
  · rw [edgePartitionBook_getElem? _ _ _ _ _ _ hc htotal i hi, List.getElem?_map,
      List.getElem?_range hi]
    rfl
  · rw [List.getElem?_eq_none, List.getElem?_eq_none]
    · rw [List.length_map, List.length_range]
      omega
    · rw [edgePartitionBook_length]
      omega

/-- The shard list component of `partitionGraph`, read at a valid shard index. -/
theorem partitionGraph_shard_getD (node_pb : Nat → Nat) (strategy : EdgeAssignStrategy)
    (numParts chunkSize : Nat) (rows cols : List Nat) (k : Nat) (hk : k < numParts) :
    ((partitionGraph node_pb strategy numParts chunkSize rows cols).1).getD k default
      = gpdOfTriples (shardTriples node_pb strategy chunkSize k rows cols) := by
  unfold partitionGraph
  rw [List.getD_eq_getElem?_getD, List.getElem?_map, List.getElem?_range hk]
  rfl

theorem gpdOfTriples_rows (ts : List (Nat × Nat × Nat)) :
    (gpdOfTriples ts).rows = ts.map fun t => t.1 := rfl

theorem gpdOfTriples_cols (ts : List (Nat × Nat × Nat)) :
    (gpdOfTriples ts).cols = ts.map fun t => t.2.1 := rfl

theorem gpdOfTriples_eids (ts : List (Nat × Nat × Nat)) :
    (gpdOfTriples ts).eids = ts.map fun t => t.2.2 := rfl

theorem edgePartitionBook_getD (node_pb : Nat → Nat) (strategy : EdgeAssignStrategy)
    (numParts chunkSize : Nat) (rows cols : List Nat)
    (hc : 1 ≤ chunkSize) (htotal : ∀ n, node_pb n < numParts)
    (e : Nat) (he : e < rows.length) :
    (edgePartitionBook node_pb strategy numParts chunkSize rows cols).getD e 0
      = shardOfEdge node_pb strategy rows cols e := by
  rw [List.getD_eq_getElem?_getD,
    edgePartitionBook_getElem? _ _ _ _ _ _ hc htotal e he]
  rfl

/-! ### Claims C1–C4 about `PartitionerBase._partition_graph` -/

/-- **C1**: for every edge list, total node partition book and edge-assignment
strategy, running `_partition_graph` with any two positive chunk sizes yields
identical per-shard `GraphPartitionData` (same rows, cols, eids in the same
order) and identical edge partition books: the chunk size changes only batch
granularity, never the partitioning outcome. -/
theorem c1_chunk_size_invariance (node_pb : Nat → Nat) (strategy : EdgeAssignStrategy)
    (numParts : Nat) (rows cols : List Nat) (ca cb : Nat)
    (hlen : cols.length = rows.length) (h1 : 1 ≤ ca) (h2 : 1 ≤ cb) :
    partitionGraph node_pb strategy numParts ca rows cols
      = partitionGraph node_pb strategy numParts cb rows cols := by
  have hsh : ∀ pidx, shardTriples node_pb strategy ca pidx rows cols
      = shardTriples node_pb strategy cb pidx rows cols := fun pidx => by
    rw [shardTriples_eq_filter _ _ _ _ h1, shardTriples_eq_filter _ _ _ _ h2]
  unfold partitionGraph edgePartitionBook
  congr 1
  · apply List.map_congr_left
    intro pidx _
    rw [hsh]
  · have hfun : (fun (book : List Nat) (pidx : Nat) =>
        scatterConst book
          ((shardTriples node_pb strategy ca pidx rows cols).map fun t => t.2.2) pidx)
        = (fun (book : List Nat) (pidx : Nat) =>
        scatterConst book
          ((shardTriples node_pb strategy cb pidx rows cols).map fun t => t.2.2) pidx) := by
      funext book pidx
      rw [hsh]
    rw [hfun]

/-- Witness for C1 at the spec's six-edge ring, shards `{0,1,2}` / `{3,4,5}`,
chunk sizes 2 and 4. -/
theorem c1_chunk_size_invariance_witness :
    partitionGraph (fun n => if n < 3 then 0 else 1) .by_src 2 2
        [0, 1, 2, 3, 4, 5] [1, 2, 3, 4, 5, 0]
      = partitionGraph (fun n => if n < 3 then 0 else 1) .by_src 2 4
        [0, 1, 2, 3, 4, 5] [1, 2, 3, 4, 5, 0] :=
  c1_chunk_size_invariance _ .by_src 2 _ _ 2 4 (by decide) (by decide) (by decide)

/-- Counterexample to C2 as stated: at the empty edge list `_partition_graph`
raises — `chunk_num = 0`, so every `res[pidx]` is an empty list and the
per-shard `torch.cat` fails — and no edge partition book is returned at
all. -/
theorem c2_counterexample :
    partitionGraphRun (fun _ => 0) .by_src 2 10000 [] [] = none := by decide

/-- **C2 (amended)**: for every nonempty edge list and total node partition
book, `_partition_graph` returns a result whose edge partition book has
length `num_edges`, every entry read at an original edge id is a shard index
in `[0, num_parts)`, each edge id lies in exactly the one shard named by the
book, and for each shard `k` the number of edge ids the book maps to `k`
equals the length of shard `k`'s stored edge list. -/
theorem c2_edge_book_totality (node_pb : Nat → Nat) (strategy : EdgeAssignStrategy)
    (numParts chunkSize : Nat) (rows cols : List Nat)
    (hne : rows ≠ []) (hlen : cols.length = rows.length) (hc : 1 ≤ chunkSize)
    (htotal : ∀ n, node_pb n < numParts) :
    ∃ shards book,
      partitionGraphRun node_pb strategy numParts chunkSize rows cols
        = some (shards, book) ∧
      book.length = rows.length ∧
      (∀ e, e < rows.length → book.getD e 0 < numParts) ∧
      (∀ e, e < rows.length → ∀ k, k < numParts →
        (e ∈ (shards.getD k default).eids ↔ book.getD e 0 = k)) ∧
      (∀ k, k < numParts → book.count k = (shards.getD k default).eids.length) := by
  refine ⟨(partitionGraph node_pb strategy numParts chunkSize rows cols).1,
    (partitionGraph node_pb strategy numParts chunkSize rows cols).2,
    partitionGraphRun_eq_some _ _ _ _ _ _ hne hc, ?_, ?_, ?_, ?_⟩
  · rw [show (partitionGraph node_pb strategy numParts chunkSize rows cols).2
        = edgePartitionBook node_pb strategy numParts chunkSize rows cols from rfl,
      edgePartitionBook_length]
  · intro e he
    rw [show (partitionGraph node_pb strategy numParts chunkSize rows cols).2
        = edgePartitionBook node_pb strategy numParts chunkSize rows cols from rfl,
      edgePartitionBook_getD _ _ _ _ _ _ hc htotal e he]
    exact htotal _
  · intro e he k hk
    rw [show (partitionGraph node_pb strategy numParts chunkSize rows cols).2
        = edgePartitionBook node_pb strategy numParts chunkSize rows cols from rfl,
      edgePartitionBook_getD _ _ _ _ _ _ hc htotal e he,
      partitionGraph_shard_getD _ _ _ _ _ _ _ hk, gpdOfTriples_eids,
      shardEids_eq _ _ _ _ hc, List.mem_filter, List.mem_range]
    constructor
    · intro h
      exact beq_iff_eq.mp h.2
    · intro h
      exact ⟨he, beq_iff_eq.mpr h⟩
  · intro k hk
    rw [show (partitionGraph node_pb strategy numParts chunkSize rows cols).2
        = edgePartitionBook node_pb strategy numParts chunkSize rows cols from rfl,
      edgePartitionBook_eq _ _ _ _ _ _ hc htotal,
      partitionGraph_shard_getD _ _ _ _ _ _ _ hk, gpdOfTriples_eids,
      shardEids_eq _ _ _ _ hc, List.count_eq_countP, List.countP_map,
      List.countP_eq_length_filter]
    rfl

/-- Witness for C2 (amended) at the spec's six-edge ring with two shards and
chunk size 2. -/
theorem c2_edge_book_totality_witness :
    ∃ shards book,
      partitionGraphRun (fun n => if n < 3 then 0 else 1) .by_src 2 2
          [0, 1, 2, 3, 4, 5] [1, 2, 3, 4, 5, 0]
        = some (shards, book) ∧
      book.length = ([0, 1, 2, 3, 4, 5] : List Nat).length ∧
      (∀ e, e < ([0, 1, 2, 3, 4, 5] : List Nat).length → book.getD e 0 < 2) ∧
      (∀ e, e < ([0, 1, 2, 3, 4, 5] : List Nat).length → ∀ k, k < 2 →
        (e ∈ (shards.getD k default).eids ↔ book.getD e 0 = k)) ∧
      (∀ k, k < 2 → book.count k = (shards.getD k default).eids.length) :=
  c2_edge_book_totality _ .by_src 2 2 _ _ (by decide) (by decide) (by decide)
    (by intro n; by_cases h : n < 3 <;> simp [h])

/-- **C3**: under `by_src` every edge stored in shard `k`'s partition data has
its source endpoint assigned to `k` by the node partition book used for
partitioning; under `by_dst` the same holds for destination endpoints. -/
theorem c3_endpoint_consistency (node_pb : Nat → Nat)
    (numParts chunkSize : Nat) (rows cols : List Nat) (k : Nat)
    (hlen : cols.length = rows.length) (hc : 1 ≤ chunkSize) (hk : k < numParts) :
    (∀ r ∈ (((partitionGraph node_pb .by_src numParts chunkSize rows cols).1).getD
        k default).rows, node_pb r = k) ∧
    (∀ d ∈ (((partitionGraph node_pb .by_dst numParts chunkSize rows cols).1).getD
        k default).cols, node_pb d = k) := by
  constructor
  · intro r hr
    rw [partitionGraph_shard_getD _ _ _ _ _ _ _ hk, gpdOfTriples_rows,
      shardTriples_eq_filter _ _ _ _ hc] at hr
    rcases List.mem_map.mp hr with ⟨t, ht, rfl⟩
    exact beq_iff_eq.mp (List.mem_filter.mp ht).2
  · intro d hd
    rw [partitionGraph_shard_getD _ _ _ _ _ _ _ hk, gpdOfTriples_cols,
      shardTriples_eq_filter _ _ _ _ hc] at hd
    rcases List.mem_map.mp hd with ⟨t, ht, rfl⟩
    exact beq_iff_eq.mp (List.mem_filter.mp ht).2

/-- Witness for C3 at the spec's six-edge ring, shard 0. -/
theorem c3_endpoint_consistency_witness :
    ((∀ r ∈ (((partitionGraph (fun n => if n < 3 then 0 else 1) .by_src 2 2
          [0, 1, 2, 3, 4, 5] [1, 2, 3, 4, 5, 0]).1).getD 0 default).rows,
        (fun n => if n < 3 then 0 else 1) r = 0) ∧
      (∀ d ∈ (((partitionGraph (fun n => if n < 3 then 0 else 1) .by_dst 2 2
          [0, 1, 2, 3, 4, 5] [1, 2, 3, 4, 5, 0]).1).getD 0 default).cols,
        (fun n => if n < 3 then 0 else 1) d = 0)) :=
  c3_endpoint_consistency _ 2 2 _ _ 0 (by decide) (by decide) (by decide)

/-- Counterexample to C4 as stated: at the empty edge list the per-shard
`torch.cat` raises (`res[pidx]` is empty because `chunk_num = 0`), so no
per-shard rows/cols/eids arrays are produced at all. -/
theorem c4_counterexample :
    partitionGraphRun (fun _ => 0) .by_dst 2 1 [] [] = none := by decide

/-- **C4 (amended)**: for every nonempty edge list, `_partition_graph`
returns per-shard edge arrays, and shard `k`'s arrays list the shard's edges
in input order: its `eids` array is exactly the increasing subsequence of
`0..num_edges-1` whose designated endpoint falls in shard `k`, and `rows` /
`cols` are the parallel endpoint lookups of that subsequence. -/
theorem c4_input_order (node_pb : Nat → Nat) (strategy : EdgeAssignStrategy)
    (numParts chunkSize : Nat) (rows cols : List Nat) (k : Nat)
    (hne : rows ≠ []) (hlen : cols.length = rows.length) (hc : 1 ≤ chunkSize)
    (hk : k < numParts) :
    ∃ shards book,
      partitionGraphRun node_pb strategy numParts chunkSize rows cols
        = some (shards, book) ∧
      (shards.getD k default).eids
        = ((List.range rows.length).filter fun e =>
            shardOfEdge node_pb strategy rows cols e == k) ∧
      (shards.getD k default).rows
        = (((List.range rows.length).filter fun e =>
            shardOfEdge node_pb strategy rows cols e == k).map
              fun e => rows.getD e 0) ∧
      (shards.getD k default).cols
        = (((List.range rows.length).filter fun e =>
            shardOfEdge node_pb strategy rows cols e == k).map
              fun e => cols.getD e 0) := by
  refine ⟨(partitionGraph node_pb strategy numParts chunkSize rows cols).1,
    (partitionGraph node_pb strategy numParts chunkSize rows cols).2,
    partitionGraphRun_eq_some _ _ _ _ _ _ hne hc, ?_, ?_, ?_⟩
  · rw [partitionGraph_shard_getD _ _ _ _ _ _ _ hk, gpdOfTriples_eids,
      shardEids_eq _ _ _ _ hc]
  · rw [partitionGraph_shard_getD _ _ _ _ _ _ _ hk, gpdOfTriples_rows,
      shardTriples_eq_range_filter _ _ _ _ hc, List.map_map]
    rfl
  · rw [partitionGraph_shard_getD _ _ _ _ _ _ _ hk, gpdOfTriples_cols,
      shardTriples_eq_range_filter _ _ _ _ hc, List.map_map]
    rfl

/-- Witness for C4 (amended) at the spec's six-edge ring, shard 1. -/
theorem c4_input_order_witness :
    ∃ shards book,
      partitionGraphRun (fun n => if n < 3 then 0 else 1) .by_src 2 2
          [0, 1, 2, 3, 4, 5] [1, 2, 3, 4, 5, 0]
        = some (shards, book) ∧
      (shards.getD 1 default).eids
        = ((List.range ([0, 1, 2, 3, 4, 5] : List Nat).length).filter fun e =>
            shardOfEdge (fun n => if n < 3 then 0 else 1) .by_src
              [0, 1, 2, 3, 4, 5] [1, 2, 3, 4, 5, 0] e == 1) ∧
      (shards.getD 1 default).rows
        = (((List.range ([0, 1, 2, 3, 4, 5] : List Nat).length).filter fun e =>
            shardOfEdge (fun n => if n < 3 then 0 else 1) .by_src
              [0, 1, 2, 3, 4, 5] [1, 2, 3, 4, 5, 0] e == 1).map
            fun e => ([0, 1, 2, 3, 4, 5] : List Nat).getD e 0) ∧
      (shards.getD 1 default).cols
        = (((List.range ([0, 1, 2, 3, 4, 5] : List Nat).length).filter fun e =>
            shardOfEdge (fun n => if n < 3 then 0 else 1) .by_src
              [0, 1, 2, 3, 4, 5] [1, 2, 3, 4, 5, 0] e == 1).map
            fun e => ([1, 2, 3, 4, 5, 0] : List Nat).getD e 0) :=
  c4_input_order _ .by_src 2 2 _ _ 1 (by decide) (by decide) (by decide) (by decide)

/-! ### Feature partitions and `cat_feature_cache` -/

/-- Per-shard feature partition (`FeaturePartitionData`): owned feature rows,
the parallel array of their global ids, and the optional cache of replicated
remote rows with their ids. Rows are kept abstract in `α`. -/
structure FeaturePartitionData (α : Type) where
  feats : List α
  ids : List Nat
  cache_feats : Option (List α)
  cache_ids : Option (List Nat)
deriving DecidableEq, Repr

/-- Reduction `torch.max(t).item()` on a one-dimensional integer tensor:
raises (here: `none`) when the tensor is empty, otherwise the maximum. -/
def torchMax (l : List Nat) : Option Nat :=
  match l with
  | [] => none
  | x :: xs => some (xs.foldl Nat.max x)

/-- Scatter-write of per-position values, mirroring the tensor assignment
`dst[positions] = values` with parallel position and value arrays. -/
def scatterList (base : List Nat) (positions values : List Nat) : List Nat :=
  (positions.zip values).foldl (fun b pv => b.set pv.1 pv.2) base

/-- Modelled from the spec: the helper `id2idx` (imported by
`partition/base.py` from `graphlearn_torch.python.utils`, whose source is not
part of this repository snapshot) builds an id-to-local-index map directly
from the given ids, sized by the maximum id plus one, mapping each id to its
position in the list. -/
def id2idx (ids : List Nat) : List Nat :=
  scatterList (List.replicate (ids.foldl Nat.max 0 + 1) 0) ids
    (List.range ids.length)

/-- Shallow embedding of `cat_feature_cache(partition_idx, feat_pdata,
feat_pb)`. Without a cache it returns ratio `0.0`, the owned features, the
id-to-index map of the owned ids, and the input book value untouched. With a
cache it concatenates cache rows before owned rows, sizes the id-to-index map
by `max(torch.max(cache_ids), torch.max(ids)) + 1` (hence `none` when either
id tensor is empty, where `torch.max` raises), scatter-writes owned positions
then cache positions, and patches a clone of the book at the cache ids; the
caller's book value is `feat_pb` throughout, the patch target being the
clone. Python's float division on the two row counts is modelled in `ℚ`. -/
def cat_feature_cache (partition_idx : Nat) (feat_pdata : FeaturePartitionData α)
    (feat_pb : List Nat) : Option (ℚ × List α × List Nat × List Nat) :=
  match feat_pdata.cache_feats, feat_pdata.cache_ids with
  | some cache_feats, some cache_ids =>
    match torchMax cache_ids, torchMax feat_pdata.ids with
    | some mc, some mi =>
      let cache_ratio : ℚ :=
        (cache_ids.length : ℚ) / ((cache_ids.length : ℚ) + (feat_pdata.ids.length : ℚ))
      let new_feats := cache_feats ++ feat_pdata.feats
      let max_id := Nat.max mc mi
      let nid2idx :=
        scatterList
          (scatterList (List.replicate (max_id + 1) 0) feat_pdata.ids
            ((List.range feat_pdata.ids.length).map fun i => i + cache_ids.length))
          cache_ids (List.range cache_ids.length)
      let new_feat_pb := scatterConst feat_pb cache_ids partition_idx
      some (cache_ratio, new_feats, nid2idx, new_feat_pb)
    | _, _ => none
  | _, _ => some (0, feat_pdata.feats, id2idx feat_pdata.ids, feat_pb)

/-! ### `PartitionerBase.__init__` -/

/-- Observable side effects performed by `PartitionerBase.__init__`. -/
inductive InitEffect
  | ensureDir (dir : String)
deriving DecidableEq, Repr

/-- Configuration state built by a successful `PartitionerBase.__init__`
(tensor payload fields elided; they play no role in the construction-order
claims). -/
structure PartitionerBase where
  output_dir : String
  num_parts : Nat
  edge_assign_strategy : String
deriving DecidableEq, Repr

/-- Shallow embedding of `PartitionerBase.__init__`. The first component
records the observable side effects performed during construction, in order:
`ensure_dir(self.output_dir)` runs first, before `assert self.num_parts > 1`;
the strategy is lowercased and asserted later still. Tensor conversion and
the homogeneous/heterogeneous shape asserts that sit between the two modelled
asserts are elided. A failed assert is the `Except.error` result; the effects
already performed are reported either way. -/
def partitionerBaseInit (output_dir : String) (num_parts : Nat)
    (edge_assign_strategy : String) :
    List InitEffect × Except String PartitionerBase :=
  let effects := [InitEffect.ensureDir output_dir]
  if num_parts > 1 then
    let strategy := edge_assign_strategy.toLower
    if strategy = "by_src" ∨ strategy = "by_dst" then
      (effects, Except.ok ⟨output_dir, num_parts, strategy⟩)
    else
      (effects, Except.error "assert edge_assign_strategy")
  else
    (effects, Except.error "assert num_parts > 1")

/-! ### `DistDataset` partition books -/

/-- Partition book fields of `DistDataset`: the topology books `node_pb` /
`edge_pb` and the internal feature-specific books `_node_feat_pb` /
`_edge_feat_pb`, each optional (`None` when not provided at construction). -/
structure DistDataset (PB : Type) where
  node_pb : Option PB
  edge_pb : Option PB
  _node_feat_pb : Option PB
  _edge_feat_pb : Option PB
deriving DecidableEq, Repr

/-- The `node_feat_pb` property of `DistDataset`: the topology book when no
feature-specific book was provided, otherwise the feature-specific book. -/
def DistDataset.node_feat_pb (d : DistDataset PB) : Option PB :=
  match d._node_feat_pb with
  | none => d.node_pb
  | some pb => some pb

/-- The `edge_feat_pb` property of `DistDataset`, analogous to
`node_feat_pb`. -/
def DistDataset.edge_feat_pb (d : DistDataset PB) : Option PB :=
  match d._edge_feat_pb with
  | none => d.edge_pb
  | some pb => some pb

/-! ### Lemmas about value scatters and the torch maximum -/

theorem scatterList_cons (base : List Nat) (p v : Nat) (ps vs : List Nat) :
    scatterList base (p :: ps) (v :: vs) = scatterList (base.set p v) ps vs := rfl

theorem scatterList_length :
    ∀ (ps vs base : List Nat), (scatterList base ps vs).length = base.length := by
  intro ps
  induction ps with
  | nil => intro vs base; rfl
  | cons p ps ih =>
    intro vs base
    cases vs with
    | nil => rfl
    | cons v vs => rw [scatterList_cons, ih, List.length_set]

theorem scatterList_getElem?_not_mem :
    ∀ (ps vs base : List Nat) (e : Nat), e ∉ ps →
      (scatterList base ps vs)[e]? = base[e]? := by
  intro ps
  induction ps with
  | nil => intro vs base e _; rfl
  | cons p ps ih =>
    intro vs base e hmem
    cases vs with
    | nil => rfl
    | cons v vs =>
      rw [scatterList_cons, ih _ _ _ (fun h => hmem (List.mem_cons_of_mem _ h)),
        List.getElem?_set, if_neg (fun h => hmem (List.mem_cons.mpr (Or.inl h.symm)))]

/-- Scatter of parallel values at pairwise-distinct positions: the entry at
the `i`-th position equals the `i`-th value. -/
theorem scatterList_getElem?_pos :
    ∀ (ps vs base : List Nat) (i : Nat), ps.Nodup → i < ps.length → i < vs.length →
      ps.getD i 0 < base.length →
      (scatterList base ps vs)[ps.getD i 0]? = some (vs.getD i 0) := by
  intro ps
  induction ps with
  | nil => intro vs base i _ hi; exact absurd hi (by simp)
  | cons p ps ih =>
    intro vs base i hnd hi hv hb
    cases vs with
    | nil => exact absurd hv (by simp)
    | cons v vs =>
      rw [scatterList_cons]
      cases i with
      | zero =>
        have hp : (p :: ps).getD 0 0 = p := rfl
        rw [hp] at hb ⊢
        rw [scatterList_getElem?_not_mem _ _ _ _ (List.nodup_cons.mp hnd).1,
          List.getElem?_set, if_pos rfl, if_pos hb]
        rfl
      | succ j =>
        have hp : (p :: ps).getD (j + 1) 0 = ps.getD j 0 := rfl
        have hvv : (v :: vs).getD (j + 1) 0 = vs.getD j 0 := rfl
        rw [hp, hvv]
        exact ih vs (base.set p v) j (List.nodup_cons.mp hnd).2
          (by simpa using hi) (by simpa using hv)
          (by rw [List.length_set]; exact hb)

theorem foldl_max_le_init : ∀ (ys : List Nat) (a : Nat), a ≤ ys.foldl Nat.max a := by
  intro ys
  induction ys with
  | nil => intro a; exact le_refl a
  | cons y ys ih =>
    intro a
    exact le_trans (Nat.le_max_left a y) (ih (Nat.max a y))

theorem foldl_max_le_mem : ∀ (ys : List Nat) (a x : Nat), x ∈ ys → x ≤ ys.foldl Nat.max a := by
  intro ys
  induction ys with
  | nil => intro a x hx; exact absurd hx (List.not_mem_nil x)
  | cons y ys ih =>
    intro a x hx
    rcases List.mem_cons.mp hx with h | h
    · subst h
      exact le_trans (Nat.le_max_right a x) (foldl_max_le_init ys _)
    · exact ih _ x h

theorem foldl_max_mem : ∀ (ys : List Nat) (a : Nat),
    ys.foldl Nat.max a = a ∨ ys.foldl Nat.max a ∈ ys := by
  intro ys
  induction ys with
  | nil => intro a; exact Or.inl rfl
  | cons y ys ih =>
    intro a
    have hstep : (y :: ys).foldl Nat.max a = ys.foldl Nat.max (Nat.max a y) := rfl
    rcases ih (Nat.max a y) with h | h
    · rcases Nat.le_total a y with hle | hle
      · have hmax : Nat.max a y = y := Nat.max_eq_right hle
        rw [hstep, h, hmax]
        exact Or.inr (List.mem_cons_self _ _)
      · have hmax : Nat.max a y = a := Nat.max_eq_left hle
        rw [hstep, h, hmax]
        exact Or.inl rfl
    · rw [hstep]
      exact Or.inr (List.mem_cons_of_mem _ h)

theorem torchMax_le (l : List Nat) (m : Nat) (h : torchMax l = some m) :
    ∀ x ∈ l, x ≤ m := by
  cases l with
  | nil => exact Option.noConfusion h
  | cons y ys =>
    intro x hx
    have hm : ys.foldl Nat.max y = m := Option.some.inj h
    subst hm
    rcases List.mem_cons.mp hx with h1 | h1
    · subst h1
      exact foldl_max_le_init ys x
    · exact foldl_max_le_mem ys y x h1

theorem torchMax_mem (l : List Nat) (m : Nat) (h : torchMax l = some m) : m ∈ l := by
  cases l with
  | nil => exact Option.noConfusion h
  | cons y ys =>
    have hm : ys.foldl Nat.max y = m := Option.some.inj h
    subst hm
    rcases foldl_max_mem ys y with h1 | h1
    · rw [h1]
      exact List.mem_cons_self _ _
    · exact List.mem_cons_of_mem _ h1

theorem torchMax_of_ne_nil (l : List Nat) (h : l ≠ []) : ∃ m, torchMax l = some m := by
  cases l with
  | nil => exact absurd rfl h
  | cons y ys => exact ⟨ys.foldl Nat.max y, rfl⟩

/-- Computation rule for `cat_feature_cache` on a partition that carries a
cache, with both maxima defined. -/
theorem cat_feature_cache_eq_of (partition_idx : Nat) (feats : List α)
    (ids : List Nat) (cf : List α) (ci : List Nat) (feat_pb : List Nat)
    (mc mi : Nat) (hmc : torchMax ci = some mc) (hmi : torchMax ids = some mi) :
    cat_feature_cache partition_idx
        (⟨feats, ids, some cf, some ci⟩ : FeaturePartitionData α) feat_pb
      = some ((ci.length : ℚ) / ((ci.length : ℚ) + (ids.length : ℚ)),
          cf ++ feats,
          scatterList
            (scatterList (List.replicate (Nat.max mc mi + 1) 0) ids
              ((List.range ids.length).map fun i => i + ci.length))
            ci (List.range ci.length),
          scatterConst feat_pb ci partition_idx) := by
  unfold cat_feature_cache
  dsimp only
  rw [hmc, hmi]

theorem getD_mem_of_lt (l : List Nat) (i : Nat) (h : i < l.length) : l.getD i 0 ∈ l := by
  rw [List.getD_eq_getElem?_getD, List.getElem?_eq_getElem h]
  exact List.getElem_mem h

theorem range_getD (n i : Nat) (h : i < n) : (List.range n).getD i 0 = i := by
  rw [List.getD_eq_getElem?_getD, List.getElem?_range h]
  rfl

theorem map_range_getD (n c j : Nat) (h : j < n) :
    ((List.range n).map fun i => i + c).getD j 0 = j + c := by
  rw [List.getD_eq_getElem?_getD, List.getElem?_map, List.getElem?_range h]
  rfl

/-! ### Claims C5–C7 and C10 about `cat_feature_cache` -/

/-- Counterexample to C5 as stated: a feature partition with `C = 1` cache row
and `O = 0` owned rows (disjoint ids) does not yield a merged tensor of
`C + O` rows — `torch.max` of the empty owned-id tensor raises, so the call
returns no result at all. -/
theorem c5_counterexample :
    cat_feature_cache 0
        (⟨[], [], some [50], some [5]⟩ : FeaturePartitionData Nat)
        [1, 1, 1, 1, 1, 1]
      = none := rfl

/-- **C5 (amended)**: for every feature partition with `C ≥ 1` cache rows and
`O ≥ 1` owned rows, parallel row/id arrays, duplicate-free owned and cache
ids, and owned ids disjoint from cache ids, `cat_feature_cache` returns a
feature tensor of `C + O` rows whose first `C` rows are the cache rows in
order and last `O` rows the owned rows in order, an id-to-index map sending
the `i`-th cache id to `i < C` and the `j`-th owned id to `C + j`, and cache
ratio `C / (C + O)`. -/
theorem c5_cache_merge_ordering (partition_idx : Nat) (feats : List α)
    (ids : List Nat) (cf : List α) (ci : List Nat) (feat_pb : List Nat)
    (hciO : ci ≠ []) (hidsO : ids ≠ [])
    (hpar : feats.length = ids.length) (hcfl : cf.length = ci.length)
    (hnd_ids : ids.Nodup) (hnd_ci : ci.Nodup)
    (hdisj : ∀ a ∈ ids, a ∉ ci) :
    ∃ nf m npb,
      cat_feature_cache partition_idx
          (⟨feats, ids, some cf, some ci⟩ : FeaturePartitionData α) feat_pb
        = some ((ci.length : ℚ) / ((ci.length : ℚ) + (ids.length : ℚ)), nf, m, npb) ∧
      nf.length = ci.length + ids.length ∧
      nf.take ci.length = cf ∧
      nf.drop ci.length = feats ∧
      (∀ i, i < ci.length → m.getD (ci.getD i 0) 0 = i) ∧
      (∀ j, j < ids.length → m.getD (ids.getD j 0) 0 = ci.length + j) := by
  obtain ⟨mc, hmc⟩ := torchMax_of_ne_nil ci hciO
  obtain ⟨mi, hmi⟩ := torchMax_of_ne_nil ids hidsO
  refine ⟨cf ++ feats, _, _,
    cat_feature_cache_eq_of partition_idx feats ids cf ci feat_pb mc mi hmc hmi,
    ?_, ?_, ?_, ?_, ?_⟩
  · rw [List.length_append, hcfl, hpar]
  · rw [← hcfl, List.take_left]
  · rw [← hcfl, List.drop_left]
  · intro i hi
    have hbase2 :
        (scatterList (List.replicate (Nat.max mc mi + 1) 0) ids
          ((List.range ids.length).map fun k => k + ci.length)).length
        = Nat.max mc mi + 1 := by
      rw [scatterList_length, List.length_replicate]
    have hb : ci.getD i 0 < (scatterList (List.replicate (Nat.max mc mi + 1) 0) ids
        ((List.range ids.length).map fun k => k + ci.length)).length := by
      rw [hbase2]
      have h1 : ci.getD i 0 ≤ mc := torchMax_le ci mc hmc _ (getD_mem_of_lt ci i hi)
      have h2 : mc ≤ Nat.max mc mi := Nat.le_max_left mc mi
      omega
    rw [List.getD_eq_getElem?_getD,
      scatterList_getElem?_pos ci (List.range ci.length) _ i hnd_ci hi
        (by rw [List.length_range]; exact hi) hb,
      range_getD _ _ hi]
    rfl
  · intro j hj
    have hnot : ids.getD j 0 ∉ ci := hdisj _ (getD_mem_of_lt ids j hj)
    have hb1 : ids.getD j 0 < (List.replicate (Nat.max mc mi + 1) 0).length := by
      rw [List.length_replicate]
      have h1 : ids.getD j 0 ≤ mi := torchMax_le ids mi hmi _ (getD_mem_of_lt ids j hj)
      have h2 : mi ≤ Nat.max mc mi := Nat.le_max_right mc mi
      omega
    rw [List.getD_eq_getElem?_getD,
      scatterList_getElem?_not_mem ci (List.range ci.length) _ _ hnot,
      scatterList_getElem?_pos ids ((List.range ids.length).map fun k => k + ci.length)
        _ j hnd_ids hj (by rw [List.length_map, List.length_range]; exact hj) hb1,
      map_range_getD _ _ _ hj]
    show j + ci.length = ci.length + j
    omega

/-- Witness for C5 at the spec scenario: owned ids `[10, 11]`, cached id
`[5]`, merged tensor `[row of 5, row of 10, row of 11]`, map `5 ↦ 0`,
`10 ↦ 1`, `11 ↦ 2`, cache ratio `1/3`. -/
theorem c5_cache_merge_ordering_witness :
    ∃ nf m npb,
      cat_feature_cache 0
          (⟨[100, 110], [10, 11], some [50], some [5]⟩ : FeaturePartitionData Nat)
          [1, 1, 1, 1, 1, 1, 1, 1, 1, 1, 1, 1]
        = some ((([5] : List Nat).length : ℚ)
              / ((([5] : List Nat).length : ℚ) + (([10, 11] : List Nat).length : ℚ)),
            nf, m, npb) ∧
      nf.length = ([5] : List Nat).length + ([10, 11] : List Nat).length ∧
      nf.take ([5] : List Nat).length = [50] ∧
      nf.drop ([5] : List Nat).length = [100, 110] ∧
      (∀ i, i < ([5] : List Nat).length →
        m.getD (([5] : List Nat).getD i 0) 0 = i) ∧
      (∀ j, j < ([10, 11] : List Nat).length →
        m.getD (([10, 11] : List Nat).getD j 0) 0 = ([5] : List Nat).length + j) :=
  c5_cache_merge_ordering 0 [100, 110] [10, 11] [50] [5]
    [1, 1, 1, 1, 1, 1, 1, 1, 1, 1, 1, 1]
    (by decide) (by decide) (by decide) (by decide) (by decide) (by decide)
    (by decide)

/-- Counterexample to C6 as stated: a feature partition carrying a cache but
no owned rows returns no patched feature book at all — `torch.max` of the
empty owned-id tensor raises inside the cache branch. -/
theorem c6_counterexample :
    cat_feature_cache 1
        (⟨[], [], some [7], some [3]⟩ : FeaturePartitionData Nat)
        [0, 0, 0, 2]
      = none := rfl

/-- **C6 (amended)**: for every feature partition with a nonempty cache and at
least one owned row, and every input partition book, the book returned by
`cat_feature_cache shard_index ...` returns `shard_index` at every cache id
and agrees with the input book at every non-cache id; the input (topology)
book itself is the unchanged value `feat_pb` — the source patches a clone,
which this explicit-state embedding renders by returning the patched book as
a separate value while `feat_pb` stays untouched. -/
theorem c6_feature_book_patch (partition_idx : Nat) (feats : List α)
    (ids : List Nat) (cf : List α) (ci : List Nat) (feat_pb : List Nat)
    (hciO : ci ≠ []) (hidsO : ids ≠ []) :
    ∃ r nf m npb,
      cat_feature_cache partition_idx
          (⟨feats, ids, some cf, some ci⟩ : FeaturePartitionData α) feat_pb
        = some (r, nf, m, npb) ∧
      npb.length = feat_pb.length ∧
      (∀ cid ∈ ci, cid < feat_pb.length → npb.getD cid 0 = partition_idx) ∧
      (∀ x, x ∉ ci → npb.getD x 0 = feat_pb.getD x 0) := by
  obtain ⟨mc, hmc⟩ := torchMax_of_ne_nil ci hciO
  obtain ⟨mi, hmi⟩ := torchMax_of_ne_nil ids hidsO
  refine ⟨_, _, _, _,
    cat_feature_cache_eq_of partition_idx feats ids cf ci feat_pb mc mi hmc hmi,
    ?_, ?_, ?_⟩
  · rw [scatterConst_length]
  · intro cid hmem hlen
    rw [List.getD_eq_getElem?_getD,
      scatterConst_getElem?_mem partition_idx cid ci feat_pb hmem hlen]
    rfl
  · intro x hx
    rw [List.getD_eq_getElem?_getD,
      scatterConst_getElem?_not_mem partition_idx x ci feat_pb hx,
      ← List.getD_eq_getElem?_getD]

/-- Witness for C6 at the spec scenario, merging into shard 0 with an input
book that owns id 5 at shard 1. -/
theorem c6_feature_book_patch_witness :
    ∃ r nf m npb,
      cat_feature_cache 0
          (⟨[100, 110], [10, 11], some [50], some [5]⟩ : FeaturePartitionData Nat)
          [1, 1, 1, 1, 1, 1, 0, 0, 0, 0, 0, 0]
        = some (r, nf, m, npb) ∧
      npb.length = ([1, 1, 1, 1, 1, 1, 0, 0, 0, 0, 0, 0] : List Nat).length ∧
      (∀ cid ∈ ([5] : List Nat),
        cid < ([1, 1, 1, 1, 1, 1, 0, 0, 0, 0, 0, 0] : List Nat).length →
        npb.getD cid 0 = 0) ∧
      (∀ x, x ∉ ([5] : List Nat) →
        npb.getD x 0 = ([1, 1, 1, 1, 1, 1, 0, 0, 0, 0, 0, 0] : List Nat).getD x 0) :=
  c6_feature_book_patch 0 [100, 110] [10, 11] [50] [5]
    [1, 1, 1, 1, 1, 1, 0, 0, 0, 0, 0, 0] (by decide) (by decide)

/-- **C7**: for every feature partition whose cache is absent (`cache_feats`
or `cache_ids` is `None`), `cat_feature_cache` returns cache ratio `0`, the
owned feature tensor unchanged, the id-to-index map built directly from the
owned ids, and the input partition book itself with no patching applied. -/
theorem c7_no_cache_degenerate (partition_idx : Nat)
    (feat_pdata : FeaturePartitionData α) (feat_pb : List Nat)
    (h : feat_pdata.cache_feats = none ∨ feat_pdata.cache_ids = none) :
    cat_feature_cache partition_idx feat_pdata feat_pb
      = some (0, feat_pdata.feats, id2idx feat_pdata.ids, feat_pb) := by
  obtain ⟨feats, ids, cfo, cio⟩ := feat_pdata
  cases cfo with
  | none => cases cio <;> rfl
  | some cf =>
    cases cio with
    | none => rfl
    | some ci =>
      simp only at h
      rcases h with h | h <;> exact Option.noConfusion h

/-- Witness for C7 on a cache-free node feature partition. -/
theorem c7_no_cache_degenerate_witness :
    cat_feature_cache 0
        (⟨[10, 20], [3, 4], none, none⟩ : FeaturePartitionData Nat)
        [9, 9, 9, 9, 9]
      = some (0, [10, 20], id2idx [3, 4], [9, 9, 9, 9, 9]) :=
  c7_no_cache_degenerate 0 _ _ (Or.inl rfl)

/-- Counterexample to C10 as stated: a feature partition with two cached rows
and no owned rows returns no id-to-index map at all — `torch.max` of the
empty owned-id tensor raises — rather than a total array of length
`max_id + 1`. -/
theorem c10_counterexample :
    cat_feature_cache 0
        (⟨[], [], some [9, 9], some [4, 6]⟩ : FeaturePartitionData Nat)
        [1, 1, 1, 1, 1, 1, 1]
      = none := rfl

/-- **C10 (amended)**: for every feature partition with a nonempty
duplicate-free cache and at least one owned row, the id-to-index map returned
by `cat_feature_cache` is a total array of length `max_id + 1` (with `max_id`
the largest id among cache and owned ids, which bounds them all), and at
every position that is neither a cache id nor an owned id the lookup does not
fail but returns `0` — the local index of the first cache row, as the
lookup at the first cache id itself shows. -/
theorem c10_id2idx_default_zero (partition_idx : Nat) (feats : List α)
    (ids : List Nat) (cf : List α) (ci : List Nat) (feat_pb : List Nat)
    (hciO : ci ≠ []) (hidsO : ids ≠ []) (hnd_ci : ci.Nodup) :
    ∃ r nf m npb,
      cat_feature_cache partition_idx
          (⟨feats, ids, some cf, some ci⟩ : FeaturePartitionData α) feat_pb
        = some (r, nf, m, npb) ∧
      (∀ x ∈ ci, x < m.length) ∧
      (∀ x ∈ ids, x < m.length) ∧
      (∃ x, (x ∈ ci ∨ x ∈ ids) ∧ x + 1 = m.length) ∧
      (∀ e, e < m.length → e ∉ ci → e ∉ ids → m.getD e 0 = 0) ∧
      m.getD (ci.getD 0 0) 0 = 0 := by
  obtain ⟨mc, hmc⟩ := torchMax_of_ne_nil ci hciO
  obtain ⟨mi, hmi⟩ := torchMax_of_ne_nil ids hidsO
  have hml :
      (scatterList
        (scatterList (List.replicate (Nat.max mc mi + 1) 0) ids
          ((List.range ids.length).map fun k => k + ci.length))
        ci (List.range ci.length)).length = Nat.max mc mi + 1 := by
    rw [scatterList_length, scatterList_length, List.length_replicate]
  refine ⟨_, _, _, _,
    cat_feature_cache_eq_of partition_idx feats ids cf ci feat_pb mc mi hmc hmi,
    ?_, ?_, ?_, ?_, ?_⟩
  · intro x hx
    rw [hml]
    have h1 : x ≤ mc := torchMax_le ci mc hmc x hx
    have h2 : mc ≤ Nat.max mc mi := Nat.le_max_left mc mi
    omega
  · intro x hx
    rw [hml]
    have h1 : x ≤ mi := torchMax_le ids mi hmi x hx
    have h2 : mi ≤ Nat.max mc mi := Nat.le_max_right mc mi
    omega
  · refine ⟨Nat.max mc mi, ?_, by rw [hml]⟩
    rcases Nat.le_total mc mi with hle | hle
    · have hmax : Nat.max mc mi = mi := Nat.max_eq_right hle
      rw [hmax]
      exact Or.inr (torchMax_mem ids mi hmi)
    · have hmax : Nat.max mc mi = mc := Nat.max_eq_left hle
      rw [hmax]
      exact Or.inl (torchMax_mem ci mc hmc)
  · intro e he hci hids
    rw [hml] at he
    rw [List.getD_eq_getElem?_getD,
      scatterList_getElem?_not_mem ci (List.range ci.length) _ e hci,
      scatterList_getElem?_not_mem ids
        ((List.range ids.length).map fun k => k + ci.length) _ e hids,
      List.getElem?_replicate, if_pos (by omega)]
    rfl
  · have h0 : 0 < ci.length := List.length_pos.mpr hciO
    have hb : ci.getD 0 0 < (scatterList (List.replicate (Nat.max mc mi + 1) 0) ids
        ((List.range ids.length).map fun k => k + ci.length)).length := by
      rw [scatterList_length, List.length_replicate]
      have h1 : ci.getD 0 0 ≤ mc := torchMax_le ci mc hmc _ (getD_mem_of_lt ci 0 h0)
      have h2 : mc ≤ Nat.max mc mi := Nat.le_max_left mc mi
      omega
    rw [List.getD_eq_getElem?_getD,
      scatterList_getElem?_pos ci (List.range ci.length) _ 0 hnd_ci h0
        (by rw [List.length_range]; exact h0) hb,
      range_getD _ _ h0]
    rfl

/-- Witness for C10 on a partition caching ids 1 and 4 with owned ids 2 and
0: unseen ids such as 3 resolve to index 0. -/
theorem c10_id2idx_default_zero_witness :
    ∃ r nf m npb,
      cat_feature_cache 0
          (⟨[20, 10], [2, 0], some [91, 94], some [1, 4]⟩ : FeaturePartitionData Nat)
          [1, 1, 1, 1, 1]
        = some (r, nf, m, npb) ∧
      (∀ x ∈ ([1, 4] : List Nat), x < m.length) ∧
      (∀ x ∈ ([2, 0] : List Nat), x < m.length) ∧
      (∃ x, (x ∈ ([1, 4] : List Nat) ∨ x ∈ ([2, 0] : List Nat)) ∧ x + 1 = m.length) ∧
      (∀ e, e < m.length → e ∉ ([1, 4] : List Nat) → e ∉ ([2, 0] : List Nat) →
        m.getD e 0 = 0) ∧
      m.getD (([1, 4] : List Nat).getD 0 0) 0 = 0 :=
  c10_id2idx_default_zero 0 [20, 10] [2, 0] [91, 94] [1, 4] [1, 1, 1, 1, 1]
    (by decide) (by decide) (by decide)

/-! ### Claim C8 about `PartitionerBase.__init__` -/

/-- Counterexample to C8 as stated: constructing with `num_parts = 1` is
rejected by the assert, but the output-directory creation side effect has
already happened by then — `ensure_dir(self.output_dir)` runs before
`assert self.num_parts > 1`. -/
theorem c8_counterexample :
    (partitionerBaseInit "out" 1 "by_src").2 = Except.error "assert num_parts > 1" ∧
    (partitionerBaseInit "out" 1 "by_src").1 = [InitEffect.ensureDir "out"] ∧
    (partitionerBaseInit "out" 1 "by_src").1 ≠ [] :=
  ⟨rfl, rfl, by decide⟩

/-- **C8 (amended)**: construction of a partitioner with `num_parts ≤ 1` is
rejected at the construction boundary by the assert, but not before the
output directory has been created: the single observable side effect
performed before the rejection is `ensure_dir(output_dir)`. -/
theorem c8_reject_after_dir_creation (output_dir : String) (num_parts : Nat)
    (strategy : String) (h : num_parts ≤ 1) :
    (partitionerBaseInit output_dir num_parts strategy).2
        = Except.error "assert num_parts > 1" ∧
    (partitionerBaseInit output_dir num_parts strategy).1
        = [InitEffect.ensureDir output_dir] := by
  unfold partitionerBaseInit
  rw [if_neg (by omega)]
  exact ⟨rfl, rfl⟩

/-- Witness for C8 (amended) at `num_parts = 0`. -/
theorem c8_reject_after_dir_creation_witness :
    (partitionerBaseInit "part_dir" 0 "by_dst").2
        = Except.error "assert num_parts > 1" ∧
    (partitionerBaseInit "part_dir" 0 "by_dst").1
        = [InitEffect.ensureDir "part_dir"] :=
  c8_reject_after_dir_creation "part_dir" 0 "by_dst" (by decide)

/-! ### Claim C9 about `DistDataset` feature partition books -/

/-- **C9**: for every `DistDataset`, when no feature-specific node (resp.
edge) partition book was provided the `node_feat_pb` (resp. `edge_feat_pb`)
property returns the topology book `node_pb` (resp. `edge_pb`) itself, so
feature lookups fall back to the topology book; when a feature-specific book
was provided the property returns that book. -/
theorem c9_feat_pb_fallback (PB : Type) (d : DistDataset PB) :
    (d._node_feat_pb = none → d.node_feat_pb = d.node_pb) ∧
    (∀ pb, d._node_feat_pb = some pb → d.node_feat_pb = some pb) ∧
    (d._edge_feat_pb = none → d.edge_feat_pb = d.edge_pb) ∧
    (∀ pb, d._edge_feat_pb = some pb → d.edge_feat_pb = some pb) := by
  refine ⟨?_, ?_, ?_, ?_⟩
  · intro h
    unfold DistDataset.node_feat_pb
    rw [h]
  · intro pb h
    unfold DistDataset.node_feat_pb
    rw [h]
  · intro h
    unfold DistDataset.edge_feat_pb
    rw [h]
  · intro pb h
    unfold DistDataset.edge_feat_pb
    rw [h]

/-- Witness for C9: a dataset with no feature-specific node book but a
feature-specific edge book. -/
theorem c9_feat_pb_fallback_witness :
    ((⟨some 7, some 8, none, some 9⟩ : DistDataset Nat).node_feat_pb
        = (⟨some 7, some 8, none, some 9⟩ : DistDataset Nat).node_pb) ∧
    ((⟨some 7, some 8, none, some 9⟩ : DistDataset Nat).edge_feat_pb = some 9) :=
  ⟨(c9_feat_pb_fallback Nat ⟨some 7, some 8, none, some 9⟩).1 rfl,
   (c9_feat_pb_fallback Nat ⟨some 7, some 8, none, some 9⟩).2.2.2 9 rfl⟩

end GLT
